import Mathlib

/-!
Shallow embedding of the mdcmux MDC proxy, covering the message codec
(Number, ParseNumber, ParseCommand, canonical serialization, response
parsing), the prompt-stripping line scanner, and the policy engine
(Policy.Allow, Config.expandPolicy, Target.PolicyFor, and the policy
decision step of the per-client proxy loop).

Byte strings are modelled as List Char restricted to the ASCII range the
wire protocol uses.  Machine integers are modelled as Int with explicit
int64 range checks where the Go code performs them (strconv.ParseInt).
-/

set_option maxRecDepth 4096

/-! ### Character utilities

The Go code classifies bytes with the regexp classes d and s and with
unicode.IsSpace (bytes.TrimSpace).  On the ASCII range relevant to the MDC
protocol both space notions agree with the six ASCII whitespace bytes.
-/

def isDigitCh (c : Char) : Bool := 48 ≤ c.toNat && c.toNat ≤ 57

def isSpaceCh (c : Char) : Bool :=
  c == ' ' || c == '\t' || c == '\n' || c == '\x0b' || c == '\x0c' || c == '\r'

def digitVal (c : Char) : Nat := c.toNat - 48

/-- Numeric value of a string of decimal digits, accumulator form
(what strconv.ParseInt does on a digit string, ignoring overflow). -/
def digitsValFrom (acc : Nat) : List Char → Nat
  | [] => acc
  | c :: cs => digitsValFrom (10 * acc + digitVal c) cs

def digitsVal (s : List Char) : Nat := digitsValFrom 0 s

/-- The decimal digit character for d < 10 (what the fmt package emits). -/
def digitChar : Nat → Char
  | 0 => '0'
  | 1 => '1'
  | 2 => '2'
  | 3 => '3'
  | 4 => '4'
  | 5 => '5'
  | 6 => '6'
  | 7 => '7'
  | 8 => '8'
  | _ => '9'

/-- Fuel-driven digit emitter; the fuel only bounds the recursion depth and
any fuel above the printed value is enough. -/
def natDigitsAux : Nat → Nat → List Char
  | 0, _ => []
  | fuel + 1, n =>
    if n < 10 then [digitChar n]
    else natDigitsAux fuel (n / 10) ++ [digitChar (n % 10)]

/-- Decimal digit string of a natural number (fmt's percent-d on a
non-negative value). -/
def natDigits (n : Nat) : List Char := natDigitsAux (n + 1) n

/-- Decimal representation of an Int (fmt's percent-d on an int64). -/
def intRepr (i : Int) : List Char :=
  if i < 0 then '-' :: natDigits (-i).toNat else natDigits i.toNat

/-- TrimSpace: drop leading and trailing whitespace. -/
def trimSpace (s : List Char) : List Char :=
  ((s.dropWhile isSpaceCh).reverse.dropWhile isSpaceCh).reverse

/-! ### Number  (pkg/message number.go, second half of unnamed/part_004)

struct Number has whole, frac int64 and a nan flag; NaN is the zero value
with nan set.
-/

structure Number where
  whole : Int
  frac : Int
  nan : Bool
deriving DecidableEq, Repr

def i64min : Int := -(2 ^ 63)

def i64max : Int := 2 ^ 63 - 1

/-- NaN is not a Number (var NaN = Number with nan set). -/
def numberNaN : Number := ⟨0, 0, true⟩

def nanLit : List Char := ['N', 'a', 'N']

/-- Optional leading sign, as in the regexp group with plus or minus. -/
def parseSign (s : List Char) : Bool × List Char :=
  match s with
  | [] => (false, [])
  | c :: rest =>
    if c = '+' then (false, rest)
    else if c = '-' then (true, rest)
    else (false, s)

/-- Anchored match of the numberFormat regexp body on an already trimmed
string: an optional sign, one or more digits, then optionally a dot and
zero or more digits.  Returns (negative, whole digits, fractional digits
when the dot group matched). -/
def matchNumberCore (s : List Char) : Option (Bool × List Char × Option (List Char)) :=
  let p := parseSign s
  let ds := p.2.takeWhile isDigitCh
  let s2 := p.2.dropWhile isDigitCh
  if ds = [] then none
  else
    match s2 with
    | [] => some (p.1, ds, none)
    | c :: s3 =>
      if c = '.' then
        if s3.dropWhile isDigitCh = [] then some (p.1, ds, some (s3.takeWhile isDigitCh))
        else none
      else none

/-- ParseNumber validates the input is numeric (unnamed/part_004 lines
236-265).  TrimSpace, empty check, NaN literal, then the numberFormat
regexp; whole and frac go through strconv.ParseInt with int64 bounds. -/
def ParseNumber (buf : List Char) : Except String Number :=
  let t := trimSpace buf
  if t = [] then .error "empty number"
  else if t = nanLit then .ok numberNaN
  else
    match matchNumberCore t with
    | none => .error "invalid number format"
    | some (neg, ds, fr) =>
      let w : Int := if neg then -(digitsVal ds : Int) else (digitsVal ds : Int)
      if w < i64min ∨ i64max < w then .error "whole out of range"
      else
        let f : Int := (digitsVal (fr.getD []) : Int)
        if i64max < f then .error "frac out of range"
        else .ok ⟨w, f, false⟩

/-- Float formatting of a Number: the f, s and v verbs with no precision
print whole dot frac; NaN prints the literal NaN (Number.Format). -/
def formatFloat (n : Number) : List Char :=
  if n.nan then nanLit else intRepr n.whole ++ '.' :: natDigits n.frac.toNat

/-- Decimal formatting of a Number: the d verb prints the whole part only;
NaN prints the literal NaN (Number.Format). -/
def formatDecimal (n : Number) : List Char :=
  if n.nan then nanLit else intRepr n.whole

/-! ### Commands  (pkg/message: message.go, basic.go, query.go, base.go)

The closed set of Command implementations: basicCommand, queryCommand and
writeCommand.  Basic commands are interned by their Number code, so
equality of the model's code field matches the identity equality of the Go
singletons; the documented flag is set exactly for the codes registered by
basicDocumented.
-/

inductive Command where
  | basic (code : Number)
  | query (v : Number)
  | write (v value : Number)
deriving DecidableEq, Repr

/-- QMacroVariable = Int(600). -/
def qMacroVariable : Number := ⟨600, 0, false⟩

/-- The Q command numbers registered through basicDocumented (message.go
lines 36-68).  QMacroVariable is not among them; basicCommand.IsSafe
special-cases it instead. -/
def documentedCodes : List Number :=
  [⟨100, 0, false⟩, ⟨101, 0, false⟩, ⟨102, 0, false⟩, ⟨104, 0, false⟩,
   ⟨200, 0, false⟩, ⟨201, 0, false⟩, ⟨300, 0, false⟩, ⟨301, 0, false⟩,
   ⟨303, 0, false⟩, ⟨304, 0, false⟩, ⟨402, 0, false⟩, ⟨403, 0, false⟩,
   ⟨500, 0, false⟩]

/-- IsSafe: basic is safe when documented or when it is the macro-variable
code; query is safe when the variable has non-negative whole part and zero
fractional part; write is never safe (commandBase default). -/
def Command.IsSafe : Command → Bool
  | .basic code => decide (code ∈ documentedCodes) || decide (code = qMacroVariable)
  | .query v => decide (0 ≤ v.whole) && decide (v.frac = 0)
  | .write _ _ => false

/-- IsWrite: only writeCommand overrides the false default. -/
def Command.IsWrite : Command → Bool
  | .write _ _ => true
  | _ => false

/-- Command() as an Option: basic and query return their code with ok,
write inherits the commandBase default (Number zero value, not ok). -/
def Command.commandNum : Command → Option Number
  | .basic code => some code
  | .query _ => some qMacroVariable
  | .write _ _ => none

/-- Variable() as an Option: query and write return their variable, basic
inherits the commandBase default (not ok). -/
def Command.variableNum : Command → Option Number
  | .basic _ => none
  | .query v => some v
  | .write v _ => some v

/-- Value() as an Option: only write returns its value with ok. -/
def Command.valueNum : Command → Option Number
  | .write _ value => some value
  | _ => none

/-! #### The wire grammar of ParseCommand

The writePattern and queryPattern regexps are anchored and, on the byte
strings they are applied to, deterministic; they are transcribed as
recursive descent over the characters.
-/

/-- Body of a signed numeric token, continuing after an optional sign that
has already been inspected: one or more digits then optionally a dot and
zero or more digits; returns the full matched token and the rest. -/
def matchUnsigned (sgn s : List Char) : Option (List Char × List Char) :=
  let ds := s.takeWhile isDigitCh
  let s2 := s.dropWhile isDigitCh
  if ds = [] then none
  else
    match s2 with
    | [] => some (sgn ++ ds, [])
    | c :: s3 =>
      if c = '.' then some (sgn ++ ds ++ '.' :: s3.takeWhile isDigitCh, s3.dropWhile isDigitCh)
      else some (sgn ++ ds, s2)

/-- The value group of writePattern: sign, digits, optional dot and digits. -/
def matchNumTok (s : List Char) : Option (List Char × List Char) :=
  match s with
  | [] => none
  | c :: rest =>
    if c = '+' then matchUnsigned ['+'] rest
    else if c = '-' then matchUnsigned ['-'] rest
    else matchUnsigned [] s

/-- The variable group of queryPattern: digits, optional dot and digits,
with no sign. -/
def matchVarTok (s : List Char) : Option (List Char × List Char) :=
  matchUnsigned [] s

/-- writePattern anchored on the text after the two-byte prefix: variable
digits, mandatory whitespace, a signed numeric value, trailing whitespace.
Returns (variable digits, value token). -/
def matchWrite (s : List Char) : Option (List Char × List Char) :=
  let vds := s.takeWhile isDigitCh
  let s1 := s.dropWhile isDigitCh
  if vds = [] then none
  else if s1.takeWhile isSpaceCh = [] then none
  else
    match matchNumTok (s1.dropWhile isSpaceCh) with
    | none => none
    | some (tok, rest) => if rest.all isSpaceCh then some (vds, tok) else none

/-- queryPattern anchored on the text after the two-byte prefix: command
digits, then optionally whitespace and an optional unsigned numeric
variable, trailing whitespace.  Returns (command digits, variable token,
the latter empty when the variable group is absent or empty). -/
def matchQuery (s : List Char) : Option (List Char × List Char) :=
  let cds := s.takeWhile isDigitCh
  let s1 := s.dropWhile isDigitCh
  if cds = [] then none
  else if s1 = [] then some (cds, [])
  else if s1.takeWhile isSpaceCh = [] then none
  else if s1.dropWhile isSpaceCh = [] then some (cds, [])
  else
    match matchVarTok (s1.dropWhile isSpaceCh) with
    | none => none
    | some (tok, rest) => if rest.all isSpaceCh then some (cds, tok) else none

/-- ParseCommand (message.go lines 128-187): undersized check, the leading
question mark, then the E and Q variants. -/
def ParseCommand (s : List Char) : Except String Command :=
  if s.length < 3 then .error "undersized message"
  else
    match s with
    | c0 :: c1 :: rest =>
      if c0 ≠ '?' then .error "invalid message: no leading question mark"
      else if c1 = 'E' then
        match matchWrite rest with
        | none => .error "invalid query: expecting a variable number and a numeric argument"
        | some (vds, vtok) =>
          match ParseNumber vds with
          | .error e => .error e
          | .ok v =>
            match ParseNumber vtok with
            | .error e => .error e
            | .ok value => .ok (.write v value)
      else if c1 = 'Q' then
        match matchQuery rest with
        | none => .error "invalid query: expecting a whole number and optional numeric value"
        | some (cds, vtok) =>
          match ParseNumber cds with
          | .error e => .error e
          | .ok cmd =>
            if cmd.frac ≠ 0 then .error "invalid query: not expecting fractional Q command"
            else if cmd.whole = 600 then
              if vtok = [] then .error "a Q600 command must specify a variable"
              else
                match ParseNumber vtok with
                | .error e => .error e
                | .ok n => .ok (.query n)
            else .ok (.basic cmd)
      else .error "invalid message: invalid character"
    | _ => .error "undersized message"

/-- Canonical wire serialization via WriteTo: basic prints the code with
the d verb, query prints Q600 and the variable with the f verb, write
prints the variable with d and the value with f, each with a trailing
newline. -/
def Command.writeTo : Command → List Char
  | .basic code => '?' :: 'Q' :: formatDecimal code ++ ['\n']
  | .query v => '?' :: 'Q' :: '6' :: '0' :: '0' :: ' ' :: formatFloat v ++ ['\n']
  | .write v value => '?' :: 'E' :: formatDecimal v ++ ' ' :: formatFloat value ++ ['\n']

/-! ### Responses  (query.go, base.go, opaque.go) -/

inductive Resp where
  | raw (buf : List Char) (success : Bool)
  | queryResp (value : Number)
deriving DecidableEq, Repr

/-- The first occurrence of sep in s as (text before, text after), or none. -/
def findSep (sep : List Char) : List Char → Option (List Char × List Char)
  | [] => none
  | c :: rest =>
    if sep.isPrefixOf (c :: rest) then some ([], (c :: rest).drop sep.length)
    else
      match findSep sep rest with
      | none => none
      | some (b, a) => some (c :: b, a)

/-- Fuelled splitting on every non-overlapping occurrence of sep, leftmost
first; the list length is always enough fuel for a non-empty separator. -/
def splitSepAux (sep : List Char) : Nat → List Char → List (List Char)
  | 0, s => [s]
  | fuel + 1, s =>
    match findSep sep s with
    | none => [s]
    | some (b, a) => b :: splitSepAux sep fuel a

/-- bytes.Split on a non-empty separator. -/
def splitSep (sep s : List Char) : List (List Char) := splitSepAux sep s.length s

/-- The two-byte separator comma space used by queryCommand.ParseResponse. -/
def commaSpace : List Char := [',', ' ']

/-- queryCommand.ParseResponse (query.go lines 63-73): split on the
comma-space separator; with exactly two parts whose second parses as a
Number the reply is a QueryResponse, otherwise an unsuccessful opaque
response. -/
def queryParseResponse (buf : List Char) : Resp :=
  match splitSep commaSpace buf with
  | [_, p2] =>
    match ParseNumber p2 with
    | .ok num => .queryResp num
    | .error _ => .raw buf false
  | _ => .raw buf false

/-- writeCommand.ParseResponse (query.go lines 168-170): opaque, successful
exactly on the single byte bang. -/
def writeParseResponse (buf : List Char) : Resp :=
  .raw buf (match buf with
    | [c] => decide (c = '!')
    | _ => false)

/-- commandBase.ParseResponse (base.go lines 30-32): the default opaque
unsuccessful response, used by basicCommand. -/
def basicParseResponse (buf : List Char) : Resp := .raw buf false

/-! ### Prompt-stripped line scanning  (message.go lines 218-245)

bufio.ScanLines followed by the prompt-stripping loop of ScanPrompt.  A
scan step yields the number of bytes to advance and an optional token;
none stands for the nil token bufio uses to request more data.
-/

/-- dropCR of bufio.ScanLines: strip one trailing carriage return. -/
def dropCR (s : List Char) : List Char :=
  match s.getLast? with
  | some c => if c = '\r' then s.dropLast else s
  | none => s

/-- bufio.ScanLines: at EOF with no data the scan is done; a newline ends a
line; at EOF the remainder is the final line; otherwise more data is
requested. -/
def scanLines (data : List Char) (atEOF : Bool) : Nat × Option (List Char) :=
  if atEOF ∧ data = [] then (0, none)
  else
    match data.findIdx? (fun c => c = '\n') with
    | some i => (i + 1, some (dropCR (data.take i)))
    | none => if atEOF then (data.length, some (dropCR data)) else (0, none)

/-- The stripping loop of ScanPrompt: walk the indices of the token and,
at the first byte that is not the prompt, keep the suffix from that byte
and stop.  A token whose bytes are all prompts never takes the branch and
is left unchanged. -/
def scanPromptStrip (tok : List Char) : List Char :=
  match tok.findIdx? (fun c => c ≠ '>') with
  | some i => tok.drop i
  | none => tok

/-- ScanPrompt (message.go lines 233-245): ScanLines, then the stripping
loop on the token. -/
def ScanPrompt (data : List Char) (atEOF : Bool) : Nat × Option (List Char) :=
  let r := scanLines data atEOF
  (r.1, r.2.map scanPromptStrip)

/-! ### Policy engine  (first half of unnamed/part_004)

netip.Addr and netip.Prefix are modelled over byte lists; the zero Addr is
invalid and containment compares the leading mask bits within one address
family, as netip.Prefix.Contains does.
-/

inductive IpAddr where
  | zero
  | v4 (b0 b1 b2 b3 : Nat)
  | v6 (bytes : List Nat)
deriving DecidableEq, Repr

def IpAddr.bitLen : IpAddr → Nat
  | .zero => 0
  | .v4 _ _ _ _ => 32
  | .v6 _ => 128

def IpAddr.asSlice : IpAddr → List Nat
  | .zero => []
  | .v4 b0 b1 b2 b3 => [b0, b1, b2, b3]
  | .v6 bs => bs

def IpAddr.is4 : IpAddr → Bool
  | .v4 _ _ _ _ => true
  | _ => false

/-- A CIDR block standing for netip.Prefix: an address and a bit count. -/
structure Cidr where
  addr : IpAddr
  bits : Int
deriving DecidableEq, Repr

/-- netip.Prefix.IsValid: a non-zero address and a bit count within the
address family's bit length. -/
def Cidr.IsValid (p : Cidr) : Bool :=
  decide (p.addr ≠ .zero) && decide (0 ≤ p.bits) && decide (p.bits ≤ (p.addr.bitLen : Int))

/-- Equality of the first n bits of two equally long byte strings. -/
def maskedEq : List Nat → List Nat → Nat → Bool
  | _, _, 0 => true
  | x :: xs, y :: ys, n + 1 =>
    if n + 1 < 8 then decide (x / 2 ^ (8 - (n + 1)) = y / 2 ^ (8 - (n + 1)))
    else decide (x = y) && maskedEq xs ys (n + 1 - 8)
  | _, _, _ + 1 => false

/-- netip.Prefix.Contains: false for an invalid prefix, the zero address or
a family mismatch, else a match of the leading mask bits. -/
def Cidr.Contains (p : Cidr) (a : IpAddr) : Bool :=
  if ¬p.IsValid then false
  else if a = .zero then false
  else if p.addr.is4 ≠ a.is4 then false
  else maskedEq p.addr.asSlice a.asSlice p.bits.toNat

/-- Policy (unnamed/part_004 lines 107-118). -/
structure Policy where
  allowUndocumentedQ : Bool
  allowWrites : List (Int × Int)
  audit : Bool
deriving DecidableEq, Repr

/-- Policy.AllowWrite (lines 137-144): true when the variable number lies
in some inclusive pair of AllowWrites. -/
def Policy.AllowWrite (p : Policy) (v : Int) : Bool :=
  p.allowWrites.any (fun pr => decide (pr.1 ≤ v) && decide (v ≤ pr.2))

/-- Policy.Allow (lines 120-133): safe messages pass; writes pass when the
variable's whole part is writable; remaining messages pass when they carry
a command code and undocumented Q commands are allowed. -/
def Policy.Allow (p : Policy) (m : Command) : Bool :=
  if m.IsSafe then true
  else if m.IsWrite then
    p.AllowWrite (match m.variableNum with
      | some v => v.whole
      | none => 0)
  else if m.commandNum.isSome && p.allowUndocumentedQ then true
  else false

/-- orderedPolicy (lines 164-168). -/
structure OrderedPolicy where
  cidr : Cidr
  priority : Int
  policy : Policy
deriving DecidableEq, Repr

/-- bytes.Compare: lexicographic byte order. -/
def listCompareNat : List Nat → List Nat → Int
  | [], [] => 0
  | [], _ :: _ => -1
  | _ :: _, [] => 1
  | x :: xs, y :: ys =>
    if x < y then -1 else if y < x then 1 else listCompareNat xs ys

/-- The comparison function given to slices.SortFunc in expandPolicy
(lines 88-99): priority, then mask bit count, then starting address. -/
def cmpOrderedPolicy (a b : OrderedPolicy) : Int :=
  if a.priority - b.priority ≠ 0 then a.priority - b.priority
  else if a.cidr.bits - b.cidr.bits ≠ 0 then a.cidr.bits - b.cidr.bits
  else listCompareNat a.cidr.addr.asSlice b.cidr.addr.asSlice

/-- Non-positive comparison as an order relation for sorting. -/
def polLE (a b : OrderedPolicy) : Prop := cmpOrderedPolicy a b ≤ 0

instance : DecidableRel polLE := fun a b => Int.decLe (cmpOrderedPolicy a b) 0

/-- The ordering slices.SortFunc establishes, modelled as a comparison
sort; the order of ties under cmpOrderedPolicy is unspecified in Go. -/
def sortPolicies (l : List OrderedPolicy) : List OrderedPolicy :=
  List.insertionSort polLE l

/-- One pass of expandPolicy's entry collection: keep entries with valid
prefixes at the given priority. -/
def toOrdered (prio : Int) (entries : List (Cidr × Policy)) : List OrderedPolicy :=
  (entries.filter (fun e => e.1.IsValid)).map (fun e => ⟨e.1, prio, e.2⟩)

def emptyPolicy : Policy := ⟨false, [], false⟩

def localhost4 : Cidr := ⟨.v4 127 0 0 1, 32⟩

def localhost6 : Cidr := ⟨.v6 [0, 0, 0, 0, 0, 0, 0, 0, 0, 0, 0, 0, 0, 0, 0, 1], 128⟩

/-- The fallback installed when no valid policy entry exists (lines 74-86):
both loopback prefixes share one empty Policy. -/
def defaultOrdered : List OrderedPolicy :=
  [⟨localhost4, 0, emptyPolicy⟩, ⟨localhost6, 0, emptyPolicy⟩]

/-- Config.expandPolicy for one target (lines 48-104): global entries at
priority 0, per-target entries at priority 1, invalid prefixes dropped;
the loopback fallback when nothing remains, the sorted entries otherwise.
Go map iteration order is immaterial to the proved properties, so the maps
appear as association lists. -/
def expandPolicyOrdered (globalEntries targetEntries : List (Cidr × Policy)) :
    List OrderedPolicy :=
  let ordered := toOrdered 0 globalEntries ++ toOrdered 1 targetEntries
  if ordered = [] then defaultOrdered else sortPolicies ordered

/-- Target.PolicyFor (lines 155-162): first entry containing the source
address wins. -/
def PolicyFor (ordered : List OrderedPolicy) (source : IpAddr) : Option Policy :=
  match ordered.find? (fun op => op.cidr.Contains source) with
  | some op => some op.policy
  | none => none

/-! ### The policy decision of the client loop  (unnamed/part_003)

The slice of Proxy.proxy from the first-match policy scan to the decision
to forward (lines 266-289), together with the writeError helper (lines
189-194).  The step abstracts from I/O: the bytes handed to the client
socket are recorded, and error returns of the write itself are outside the
model.
-/

inductive LoopAction where
  | hangUp
  | keepGoing
deriving DecidableEq, Repr

structure StepOutcome where
  written : List Char
  action : LoopAction
  forwarded : Bool
deriving DecidableEq, Repr

/-- writeError (part_003 lines 189-194): two prompt bytes, a question mark,
comma, space, the message, newline. -/
def errorReply (msg : List Char) : List Char :=
  '>' :: '>' :: '?' :: ',' :: ' ' :: msg ++ ['\n']

def noPolicyMatchMsg : List Char :=
  ['M', 'D', 'C', 'M', 'U', 'X', ' ', 'N', 'O', ' ', 'P', 'O', 'L', 'I', 'C', 'Y',
   ' ', 'M', 'A', 'T', 'C', 'H']

def denyPolicyMsg : List Char :=
  ['M', 'D', 'C', 'M', 'U', 'X', ' ', 'D', 'E', 'N', 'Y', ' ', 'P', 'O', 'L', 'I',
   'C', 'Y']

/-- The policy portion of one client-loop iteration that has parsed a
command (part_003 lines 266-289): no matching policy writes the no-match
error and returns, a denying policy writes the deny error and continues,
an allowing policy forwards the message. -/
def proxyPolicyStep (policies : List OrderedPolicy) (remote : IpAddr) (m : Command) :
    StepOutcome :=
  match policies.find? (fun op => op.cidr.Contains remote) with
  | none => ⟨errorReply noPolicyMatchMsg, .hangUp, false⟩
  | some op =>
    if op.policy.Allow m then ⟨[], .keepGoing, true⟩
    else ⟨errorReply denyPolicyMsg, .keepGoing, false⟩

/-! ### Lemmas about digits, whitespace and spans -/

theorem isDigitCh_iff (c : Char) : isDigitCh c = true ↔ 48 ≤ c.toNat ∧ c.toNat ≤ 57 := by
  simp [isDigitCh, Bool.and_eq_true, decide_eq_true_eq]

theorem digit_not_space (c : Char) (h : isDigitCh c = true) : isSpaceCh c = false := by
  have hc := (isDigitCh_iff c).1 h
  simp only [isSpaceCh, Bool.or_eq_false_iff, beq_eq_false_iff_ne]
  refine ⟨⟨⟨⟨⟨?_, ?_⟩, ?_⟩, ?_⟩, ?_⟩, ?_⟩ <;>
    (rintro rfl; revert hc; decide)

theorem digit_ne (c : Char) (h : isDigitCh c = true) :
    c ≠ '+' ∧ c ≠ '-' ∧ c ≠ '.' ∧ c ≠ 'N' := by
  have hc := (isDigitCh_iff c).1 h
  refine ⟨?_, ?_, ?_, ?_⟩ <;> (rintro rfl; revert hc; decide)

theorem digitChar_isDigit (d : Nat) : isDigitCh (digitChar d) = true := by
  rcases d with _ | _ | _ | _ | _ | _ | _ | _ | _ | d <;> rfl

theorem digitVal_digitChar (d : Nat) (h : d < 10) : digitVal (digitChar d) = d := by
  interval_cases d <;> rfl

theorem digitsValFrom_append (acc : Nat) (xs ys : List Char) :
    digitsValFrom acc (xs ++ ys) = digitsValFrom (digitsValFrom acc xs) ys := by
  induction xs generalizing acc with
  | nil => rfl
  | cons c cs ih =>
    show digitsValFrom (10 * acc + digitVal c) (cs ++ ys) = _
    rw [ih]
    rfl

theorem natDigitsAux_mem (fuel n : Nat) (h : n < fuel) :
    ∀ c ∈ natDigitsAux fuel n, isDigitCh c = true := by
  induction fuel generalizing n with
  | zero => omega
  | succ fuel ih =>
    intro c hc
    rw [natDigitsAux] at hc
    by_cases h10 : n < 10
    · simp only [if_pos h10, List.mem_singleton] at hc
      exact hc ▸ digitChar_isDigit n
    · simp only [if_neg h10, List.mem_append, List.mem_singleton] at hc
      rcases hc with hc | hc
      · exact ih (n / 10) (by omega) c hc
      · exact hc ▸ digitChar_isDigit (n % 10)

theorem natDigitsAux_val (fuel n : Nat) (h : n < fuel) :
    digitsVal (natDigitsAux fuel n) = n := by
  induction fuel generalizing n with
  | zero => omega
  | succ fuel ih =>
    rw [natDigitsAux]
    by_cases h10 : n < 10
    · simp only [if_pos h10]
      show 10 * 0 + digitVal (digitChar n) = n
      rw [digitVal_digitChar n h10]
      omega
    · simp only [if_neg h10]
      show digitsValFrom 0 _ = n
      rw [digitsValFrom_append]
      have hdiv : n / 10 < fuel := by
        have : n / 10 < n := Nat.div_lt_self (by omega) (by omega)
        omega
      have hv := ih (n / 10) hdiv
      simp only [digitsVal] at hv
      show 10 * digitsValFrom 0 (natDigitsAux fuel (n / 10)) + digitVal (digitChar (n % 10)) = n
      rw [hv, digitVal_digitChar (n % 10) (Nat.mod_lt n (by omega))]
      omega

theorem natDigitsAux_ne_nil (fuel n : Nat) (h : n < fuel) : natDigitsAux fuel n ≠ [] := by
  cases fuel with
  | zero => omega
  | succ fuel =>
    rw [natDigitsAux]
    by_cases h10 : n < 10 <;> simp [h10]

theorem natDigits_mem (n : Nat) : ∀ c ∈ natDigits n, isDigitCh c = true :=
  natDigitsAux_mem (n + 1) n (by omega)

theorem natDigits_val (n : Nat) : digitsVal (natDigits n) = n :=
  natDigitsAux_val (n + 1) n (by omega)

theorem natDigits_ne_nil (n : Nat) : natDigits n ≠ [] :=
  natDigitsAux_ne_nil (n + 1) n (by omega)

/-- The head of a list is not rejected by p, expressed for the rest after a
span. -/
def headNot (p : Char → Bool) : List Char → Prop
  | [] => True
  | c :: _ => p c = false

theorem takeWhile_append_all (p : Char → Bool) (ds rest : List Char)
    (hds : ∀ c ∈ ds, p c = true) (hr : headNot p rest) :
    (ds ++ rest).takeWhile p = ds ∧ (ds ++ rest).dropWhile p = rest := by
  induction ds with
  | nil =>
    cases rest with
    | nil => exact ⟨rfl, rfl⟩
    | cons c t =>
      simp only [headNot] at hr
      simp [List.takeWhile_cons, List.dropWhile_cons, hr]
  | cons d ds ih =>
    have hd := hds d (by simp)
    have hrec := ih (fun c hc => hds c (by simp [hc]))
    simp [List.takeWhile_cons, List.dropWhile_cons, hd, hrec.1, hrec.2]

theorem dropWhile_all_false (p : Char → Bool) (s : List Char)
    (h : ∀ c ∈ s, p c = false) : s.dropWhile p = s := by
  cases s with
  | nil => rfl
  | cons c t => simp [List.dropWhile_cons, h c (by simp)]

theorem trimSpace_eq_self (s : List Char) (h : ∀ c ∈ s, isSpaceCh c = false) :
    trimSpace s = s := by
  unfold trimSpace
  rw [dropWhile_all_false _ _ h, dropWhile_all_false, List.reverse_reverse]
  intro c hc
  exact h c (by simpa using hc)

/-! ### Numeric tokens of the command grammar

A token matched by the value groups of the patterns is an optional sign,
a non-empty digit string, and an optional dot-and-digits tail.
-/

/-- The text of the optional fractional group. -/
def fracTail : Option (List Char) → List Char
  | none => []
  | some fs => '.' :: fs

/-- The byte string of a sign, digits and optional fractional digits. -/
def tokOf (sgn ds : List Char) (fr : Option (List Char)) : List Char :=
  sgn ++ ds ++ fracTail fr

/-- Whether the sign makes the value negative. -/
def signNeg (sgn : List Char) : Bool := decide (sgn = ['-'])

/-- Hypotheses shared by the token lemmas. -/
def TokHyp (sgn ds : List Char) (fr : Option (List Char)) : Prop :=
  (sgn = [] ∨ sgn = ['+'] ∨ sgn = ['-']) ∧ ds ≠ [] ∧ (∀ c ∈ ds, isDigitCh c = true) ∧
    (∀ fs, fr = some fs → ∀ c ∈ fs, isDigitCh c = true)

theorem tokOf_not_space (sgn ds : List Char) (fr : Option (List Char))
    (h : TokHyp sgn ds fr) : ∀ c ∈ tokOf sgn ds fr, isSpaceCh c = false := by
  obtain ⟨hsgn, -, hds, hfr⟩ := h
  intro c hc
  simp only [tokOf, List.mem_append] at hc
  rcases hc with (hc | hc) | hc
  · rcases hsgn with rfl | rfl | rfl
    · simp at hc
    · simp at hc; exact hc ▸ (by decide)
    · simp at hc; exact hc ▸ (by decide)
  · exact digit_not_space c (hds c hc)
  · cases fr with
    | none => simp [fracTail] at hc
    | some fs =>
      simp only [fracTail, List.mem_cons] at hc
      rcases hc with rfl | hc
      · decide
      · exact digit_not_space c (hfr fs rfl c hc)

theorem tokOf_ne_nil (sgn ds : List Char) (fr : Option (List Char))
    (h : TokHyp sgn ds fr) : tokOf sgn ds fr ≠ [] := by
  have hdsne := h.2.1
  simp [tokOf, hdsne]

theorem tokOf_ne_nanLit (sgn ds : List Char) (fr : Option (List Char))
    (h : TokHyp sgn ds fr) : tokOf sgn ds fr ≠ nanLit := by
  obtain ⟨hsgn, hdsne, hds, -⟩ := h
  obtain ⟨d, ds', rfl⟩ := List.exists_cons_of_ne_nil hdsne
  have hd : isDigitCh d = true := hds d (by simp)
  have hdN : d ≠ 'N' := (digit_ne d hd).2.2.2
  rcases hsgn with rfl | rfl | rfl <;> intro heq <;>
    have h0 := congrArg List.head? heq
  · simp [tokOf, nanLit] at h0
    exact hdN h0
  · simp [tokOf, nanLit] at h0
  · simp [tokOf, nanLit] at h0

theorem parseSign_tokOf (sgn ds : List Char) (fr : Option (List Char))
    (h : TokHyp sgn ds fr) :
    parseSign (tokOf sgn ds fr) = (signNeg sgn, ds ++ fracTail fr) := by
  have hsgn := h.1
  have hdsne := h.2.1
  have hds := h.2.2.1
  obtain ⟨d, ds', rfl⟩ := List.exists_cons_of_ne_nil hdsne
  have hd : isDigitCh d = true := hds d (by simp)
  obtain ⟨hplus, hminus, -, -⟩ := digit_ne d hd
  rcases hsgn with rfl | rfl | rfl
  · simp [tokOf, parseSign, signNeg, hplus, hminus]
  · simp [tokOf, parseSign, signNeg]
  · simp [tokOf, parseSign, signNeg]

theorem takeWhile_all_true (p : Char → Bool) (s : List Char)
    (h : ∀ c ∈ s, p c = true) : s.takeWhile p = s ∧ s.dropWhile p = [] := by
  have := takeWhile_append_all p s [] h (by trivial)
  simpa using this

theorem matchNumberCore_tokOf (sgn ds : List Char) (fr : Option (List Char))
    (h : TokHyp sgn ds fr) :
    matchNumberCore (tokOf sgn ds fr) = some (signNeg sgn, ds, fr) := by
  have hdsne := h.2.1
  have hds := h.2.2.1
  have hfr := h.2.2.2
  have hps := parseSign_tokOf sgn ds fr h
  cases fr with
  | none =>
    have hspan := takeWhile_all_true isDigitCh ds hds
    rw [show fracTail none = [] from rfl, List.append_nil] at hps
    simp only [matchNumberCore, hps, hspan.1, hspan.2]
    simp [hdsne]
  | some fs =>
    have hspan := takeWhile_append_all isDigitCh ds ('.' :: fs)
      hds (by show isDigitCh '.' = false; decide)
    have hfspan := takeWhile_all_true isDigitCh fs (hfr fs rfl)
    rw [show fracTail (some fs) = '.' :: fs from rfl] at hps
    simp only [matchNumberCore, hps, hspan.1, hspan.2]
    simp [hdsne, hfspan.1, hfspan.2]

/-- The signed whole value a token stands for. -/
def wOf (sgn ds : List Char) : Int :=
  if signNeg sgn then -(digitsVal ds : Int) else (digitsVal ds : Int)

theorem ParseNumber_tokOf (sgn ds : List Char) (fr : Option (List Char))
    (h : TokHyp sgn ds fr) :
    ParseNumber (tokOf sgn ds fr) =
      (if wOf sgn ds < i64min ∨ i64max < wOf sgn ds then Except.error "whole out of range"
       else if i64max < (digitsVal (fr.getD []) : Int) then Except.error "frac out of range"
       else Except.ok ⟨wOf sgn ds, (digitsVal (fr.getD []) : Int), false⟩) := by
  have htrim := trimSpace_eq_self _ (tokOf_not_space sgn ds fr h)
  have hne := tokOf_ne_nil sgn ds fr h
  have hnan := tokOf_ne_nanLit sgn ds fr h
  have hcore := matchNumberCore_tokOf sgn ds fr h
  simp only [ParseNumber, htrim, if_neg hne, if_neg hnan, hcore, wOf]

theorem ParseNumber_tokOf_ok (sgn ds : List Char) (fr : Option (List Char))
    (h : TokHyp sgn ds fr)
    (hw1 : i64min ≤ wOf sgn ds) (hw2 : wOf sgn ds ≤ i64max)
    (hf : (digitsVal (fr.getD []) : Int) ≤ i64max) :
    ParseNumber (tokOf sgn ds fr) =
      Except.ok ⟨wOf sgn ds, (digitsVal (fr.getD []) : Int), false⟩ := by
  rw [ParseNumber_tokOf sgn ds fr h, if_neg (by omega), if_neg (by omega)]

theorem ParseNumber_tokOf_inv (sgn ds : List Char) (fr : Option (List Char))
    (n : Number) (h : TokHyp sgn ds fr)
    (hok : ParseNumber (tokOf sgn ds fr) = Except.ok n) :
    n = ⟨wOf sgn ds, (digitsVal (fr.getD []) : Int), false⟩ ∧
      i64min ≤ wOf sgn ds ∧ wOf sgn ds ≤ i64max ∧
      (digitsVal (fr.getD []) : Int) ≤ i64max := by
  rw [ParseNumber_tokOf sgn ds fr h] at hok
  split_ifs at hok with h1 h2
  push_neg at h1
  simp only [Except.ok.injEq] at hok
  exact ⟨hok.symm, by omega, by omega, by omega⟩

theorem formatFloat_tokOf (w f : Int) :
    formatFloat ⟨w, f, false⟩ =
      tokOf (if w < 0 then ['-'] else [])
        (natDigits (if w < 0 then -w else w).toNat) (some (natDigits f.toNat)) := by
  by_cases hw : w < 0 <;>
    simp [formatFloat, intRepr, tokOf, fracTail, hw, List.append_assoc]

theorem tokHyp_float (w : Int) (f : Nat) :
    TokHyp (if w < 0 then ['-'] else [])
      (natDigits (if w < 0 then -w else w).toNat) (some (natDigits f)) := by
  refine ⟨?_, natDigits_ne_nil _, natDigits_mem _, ?_⟩
  · by_cases hw : w < 0 <;> simp [hw]
  · intro fs hfs
    cases hfs
    exact natDigits_mem f

theorem wOf_float (w : Int) :
    wOf (if w < 0 then ['-'] else []) (natDigits (if w < 0 then -w else w).toNat) = w := by
  by_cases hw : w < 0
  · rw [if_pos hw, if_pos hw]
    show (if signNeg ['-'] = true then -(digitsVal (natDigits (-w).toNat) : Int)
      else (digitsVal (natDigits (-w).toNat) : Int)) = w
    rw [if_pos (show signNeg ['-'] = true from rfl), natDigits_val,
      Int.toNat_of_nonneg (by omega)]
    omega
  · rw [if_neg hw, if_neg hw]
    show (if signNeg [] = true then -(digitsVal (natDigits w.toNat) : Int)
      else (digitsVal (natDigits w.toNat) : Int)) = w
    rw [if_neg (show ¬signNeg [] = true from by decide), natDigits_val,
      Int.toNat_of_nonneg (by omega)]

/-- Parsing the float formatting of any in-range Number value returns the
value itself; the NaN case goes through the NaN literal. -/
theorem ParseNumber_formatFloat (n : Number)
    (h1 : i64min ≤ n.whole) (h2 : n.whole ≤ i64max)
    (h3 : 0 ≤ n.frac) (h4 : n.frac ≤ i64max)
    (h5 : n.nan = true → n = numberNaN) :
    ParseNumber (formatFloat n) = Except.ok n := by
  obtain ⟨w, f, nan⟩ := n
  cases nan with
  | true =>
    have := h5 rfl
    rw [this]
    rfl
  | false =>
    simp only at h1 h2 h3 h4
    rw [formatFloat_tokOf w f]
    have hhyp := tokHyp_float w f.toNat
    rw [ParseNumber_tokOf_ok _ _ _ hhyp]
    · rw [wOf_float w]
      simp only [Option.getD_some, natDigits_val]
      rw [Int.toNat_of_nonneg h3]
    · rw [wOf_float w]; omega
    · rw [wOf_float w]; omega
    · simp only [Option.getD_some, natDigits_val]
      rw [Int.toNat_of_nonneg h3]
      omega

theorem tokOf_nil_none (s : List Char) : tokOf [] s none = s := by
  simp [tokOf, fracTail]

theorem wOf_nil (s : List Char) : wOf [] s = (digitsVal s : Int) := by
  rw [wOf, if_neg (show ¬signNeg [] = true from by decide)]

theorem i64min_neg : i64min < 0 := by decide

/-- ParseNumber on a bare digit string: the value when it fits in int64. -/
theorem ParseNumber_digit_string (s : List Char) (hne : s ≠ [])
    (hds : ∀ c ∈ s, isDigitCh c = true) :
    ParseNumber s =
      if i64max < (digitsVal s : Int) then Except.error "whole out of range"
      else Except.ok ⟨(digitsVal s : Int), 0, false⟩ := by
  have h := ParseNumber_tokOf [] s none ⟨by simp, hne, hds, by simp⟩
  rw [tokOf_nil_none, wOf_nil] at h
  rw [h]
  by_cases hb : i64max < (digitsVal s : Int)
  · rw [if_pos (Or.inr hb), if_pos hb]
  · have hge : (0 : Int) ≤ (digitsVal s : Int) := Int.natCast_nonneg _
    have hmin := i64min_neg
    rw [if_neg (by omega), if_neg hb]
    rfl

theorem ParseNumber_digit_string_ok (s : List Char) (hne : s ≠ [])
    (hds : ∀ c ∈ s, isDigitCh c = true) (hb : (digitsVal s : Int) ≤ i64max) :
    ParseNumber s = Except.ok ⟨(digitsVal s : Int), 0, false⟩ := by
  rw [ParseNumber_digit_string s hne hds, if_neg (by omega)]

theorem ParseNumber_digit_string_inv (s : List Char) (n : Number) (hne : s ≠ [])
    (hds : ∀ c ∈ s, isDigitCh c = true) (hok : ParseNumber s = Except.ok n) :
    n = ⟨(digitsVal s : Int), 0, false⟩ ∧ (digitsVal s : Int) ≤ i64max := by
  rw [ParseNumber_digit_string s hne hds] at hok
  split_ifs at hok with h1
  simp only [Except.ok.injEq] at hok
  exact ⟨hok.symm, by omega⟩

/-! ### Matcher computation lemmas for the canonical forms -/

theorem matchUnsigned_tok (sgn dsw fsf rest : List Char)
    (hne : dsw ≠ []) (hds : ∀ c ∈ dsw, isDigitCh c = true)
    (hfs : ∀ c ∈ fsf, isDigitCh c = true) (hrest : headNot isDigitCh rest) :
    matchUnsigned sgn (dsw ++ '.' :: (fsf ++ rest)) =
      some (tokOf sgn dsw (some fsf), rest) := by
  have hspan := takeWhile_append_all isDigitCh dsw ('.' :: (fsf ++ rest)) hds
    (by show isDigitCh '.' = false; decide)
  have hfspan := takeWhile_append_all isDigitCh fsf rest hfs hrest
  simp only [matchUnsigned, hspan.1, hspan.2, if_neg hne]
  simp [hfspan.1, hfspan.2, tokOf, fracTail]

theorem matchNumTok_tok (sgn dsv fsv rest : List Char)
    (h : TokHyp sgn dsv (some fsv)) (hrest : headNot isDigitCh rest) :
    matchNumTok (tokOf sgn dsv (some fsv) ++ rest) =
      some (tokOf sgn dsv (some fsv), rest) := by
  obtain ⟨hsgn, hdsne, hds, hfr⟩ := h
  have hfs := hfr fsv rfl
  obtain ⟨d, ds', rfl⟩ := List.exists_cons_of_ne_nil hdsne
  have hd : isDigitCh d = true := hds d (by simp)
  obtain ⟨hplus, hminus, -, -⟩ := digit_ne d hd
  have hm := matchUnsigned_tok sgn (d :: ds') fsv rest hdsne hds hfs hrest
  rcases hsgn with rfl | rfl | rfl
  · have hshape : tokOf [] (d :: ds') (some fsv) ++ rest =
        d :: (ds' ++ '.' :: (fsv ++ rest)) := by
      simp [tokOf, fracTail]
    rw [hshape]
    simp only [matchNumTok, if_neg hplus, if_neg hminus]
    have := matchUnsigned_tok [] (d :: ds') fsv rest hdsne hds hfs hrest
    rw [show (d :: ds') ++ '.' :: (fsv ++ rest) = d :: (ds' ++ '.' :: (fsv ++ rest))
      from by simp] at this
    exact this
  · have hshape : tokOf ['+'] (d :: ds') (some fsv) ++ rest =
        '+' :: ((d :: ds') ++ '.' :: (fsv ++ rest)) := by
      simp [tokOf, fracTail]
    rw [hshape]
    simp only [matchNumTok, if_pos rfl]
    exact matchUnsigned_tok ['+'] (d :: ds') fsv rest hdsne hds hfs hrest
  · have hshape : tokOf ['-'] (d :: ds') (some fsv) ++ rest =
        '-' :: ((d :: ds') ++ '.' :: (fsv ++ rest)) := by
      simp [tokOf, fracTail]
    rw [hshape]
    simp only [matchNumTok]
    simpa using hm

theorem tokOf_append_head_not_space (sgn ds : List Char) (fr : Option (List Char))
    (rest : List Char) (h : TokHyp sgn ds fr) :
    headNot isSpaceCh (tokOf sgn ds fr ++ rest) := by
  obtain ⟨hsgn, hdsne, hds, -⟩ := h
  obtain ⟨d, ds', rfl⟩ := List.exists_cons_of_ne_nil hdsne
  have hd : isDigitCh d = true := hds d (by simp)
  rcases hsgn with rfl | rfl | rfl
  · rw [show tokOf [] (d :: ds') fr ++ rest = d :: (ds' ++ fracTail fr ++ rest) from
      by simp [tokOf]]
    exact digit_not_space d hd
  · rw [show tokOf ['+'] (d :: ds') fr ++ rest =
      '+' :: (d :: ds' ++ fracTail fr ++ rest) from by simp [tokOf]]
    show isSpaceCh '+' = false
    decide
  · rw [show tokOf ['-'] (d :: ds') fr ++ rest =
      '-' :: (d :: ds' ++ fracTail fr ++ rest) from by simp [tokOf]]
    show isSpaceCh '-' = false
    decide

theorem tokOf_append_ne_nil (sgn ds : List Char) (fr : Option (List Char))
    (rest : List Char) (h : TokHyp sgn ds fr) :
    tokOf sgn ds fr ++ rest ≠ [] := by
  have := tokOf_ne_nil sgn ds fr h
  simp [this]

theorem matchQuery_digits_newline (ds : List Char) (hne : ds ≠ [])
    (hds : ∀ c ∈ ds, isDigitCh c = true) :
    matchQuery (ds ++ ['\n']) = some (ds, []) := by
  have hspan := takeWhile_append_all isDigitCh ds ['\n'] hds
    (by show isDigitCh '\n' = false; decide)
  simp only [matchQuery, hspan.1, hspan.2, if_neg hne]
  rw [if_neg (by decide : ¬(['\n'] : List Char) = []),
    if_neg (show ¬List.takeWhile isSpaceCh ['\n'] = [] from by decide),
    if_pos (show List.dropWhile isSpaceCh ['\n'] = [] from by decide)]

theorem matchQuery_q600_tok (dsw fsf : List Char) (hne : dsw ≠ [])
    (hds : ∀ c ∈ dsw, isDigitCh c = true) (hfs : ∀ c ∈ fsf, isDigitCh c = true) :
    matchQuery ('6' :: '0' :: '0' :: ' ' :: (tokOf [] dsw (some fsf) ++ ['\n'])) =
      some (['6', '0', '0'], tokOf [] dsw (some fsf)) := by
  have hhyp : TokHyp [] dsw (some fsf) :=
    ⟨Or.inl rfl, hne, hds, fun fs hfs2 => by cases hfs2; exact hfs⟩
  have hshape : ('6' :: '0' :: '0' :: ' ' :: (tokOf [] dsw (some fsf) ++ ['\n'])) =
      ['6', '0', '0'] ++ (' ' :: (tokOf [] dsw (some fsf) ++ ['\n'])) := rfl
  have hspan := takeWhile_append_all isDigitCh ['6', '0', '0']
    (' ' :: (tokOf [] dsw (some fsf) ++ ['\n']))
    (by decide) (by show isDigitCh ' ' = false; decide)
  have hspspan := takeWhile_append_all isSpaceCh [' ']
    (tokOf [] dsw (some fsf) ++ ['\n'])
    (by decide) (tokOf_append_head_not_space [] dsw (some fsf) ['\n'] hhyp)
  have htw : List.takeWhile isSpaceCh (' ' :: (tokOf [] dsw (some fsf) ++ ['\n'])) =
      [' '] := by simpa using hspspan.1
  have hdw : List.dropWhile isSpaceCh (' ' :: (tokOf [] dsw (some fsf) ++ ['\n'])) =
      tokOf [] dsw (some fsf) ++ ['\n'] := by simpa using hspspan.2
  have hvar : matchVarTok (tokOf [] dsw (some fsf) ++ ['\n']) =
      some (tokOf [] dsw (some fsf), ['\n']) := by
    have hmu := matchUnsigned_tok [] dsw fsf ['\n'] hne hds hfs
      (by show isDigitCh '\n' = false; decide)
    rw [matchVarTok, show tokOf [] dsw (some fsf) ++ ['\n'] =
      dsw ++ '.' :: (fsf ++ ['\n']) from by simp [tokOf, fracTail], hmu]
  have hXne := tokOf_append_ne_nil [] dsw (some fsf) ['\n'] hhyp
  rw [hshape]
  simp only [matchQuery, hspan.1, hspan.2, htw, hdw, hvar]
  simp [hXne, isSpaceCh]

theorem matchWrite_tok (vds sgnv dsv fsv : List Char) (hvne : vds ≠ [])
    (hvds : ∀ c ∈ vds, isDigitCh c = true) (hv : TokHyp sgnv dsv (some fsv)) :
    matchWrite (vds ++ ' ' :: (tokOf sgnv dsv (some fsv) ++ ['\n'])) =
      some (vds, tokOf sgnv dsv (some fsv)) := by
  have hspan := takeWhile_append_all isDigitCh vds
    (' ' :: (tokOf sgnv dsv (some fsv) ++ ['\n'])) hvds
    (by show isDigitCh ' ' = false; decide)
  have hspspan := takeWhile_append_all isSpaceCh [' ']
    (tokOf sgnv dsv (some fsv) ++ ['\n'])
    (by decide) (tokOf_append_head_not_space sgnv dsv (some fsv) ['\n'] hv)
  have htw : List.takeWhile isSpaceCh (' ' :: (tokOf sgnv dsv (some fsv) ++ ['\n'])) =
      [' '] := by simpa using hspspan.1
  have hdw : List.dropWhile isSpaceCh (' ' :: (tokOf sgnv dsv (some fsv) ++ ['\n'])) =
      tokOf sgnv dsv (some fsv) ++ ['\n'] := by simpa using hspspan.2
  have htok := matchNumTok_tok sgnv dsv fsv ['\n'] hv
    (by show isDigitCh '\n' = false; decide)
  simp only [matchWrite, hspan.1, hspan.2, if_neg hvne, htw, hdw, htok]
  simp [isSpaceCh]

theorem intRepr_natCast (k : Nat) : intRepr (k : Int) = natDigits k := by
  rw [intRepr, if_neg (Int.not_lt.mpr (Int.natCast_nonneg k)), Int.toNat_natCast]

theorem formatDecimal_natCast (k : Nat) :
    formatDecimal ⟨(k : Int), 0, false⟩ = natDigits k := by
  simp [formatDecimal, intRepr_natCast]

theorem ParseCommand_writeTo_basic (k : Nat) (hk : (k : Int) ≤ i64max)
    (h600 : (k : Int) ≠ 600) :
    ParseCommand ((Command.basic ⟨(k : Int), 0, false⟩).writeTo) =
      Except.ok (.basic ⟨(k : Int), 0, false⟩) := by
  have hshape : (Command.basic ⟨(k : Int), 0, false⟩).writeTo =
      '?' :: 'Q' :: (natDigits k ++ ['\n']) := by
    show '?' :: 'Q' :: formatDecimal ⟨(k : Int), 0, false⟩ ++ ['\n'] = _
    rw [formatDecimal_natCast]
    simp
  rw [hshape]
  have hlen : ¬('?' :: 'Q' :: (natDigits k ++ ['\n'])).length < 3 := by
    simp [List.length_append]
  have hq := matchQuery_digits_newline (natDigits k) (natDigits_ne_nil k) (natDigits_mem k)
  have hpn := ParseNumber_digit_string_ok (natDigits k) (natDigits_ne_nil k)
    (natDigits_mem k) (by rw [natDigits_val]; exact hk)
  rw [natDigits_val] at hpn
  simp only [ParseCommand, if_neg hlen]
  simp [hq, hpn, h600]

theorem ParseCommand_writeTo_query (w f : Int) (hw0 : 0 ≤ w) (hw : w ≤ i64max)
    (hf0 : 0 ≤ f) (hf : f ≤ i64max) :
    ParseCommand ((Command.query ⟨w, f, false⟩).writeTo) =
      Except.ok (.query ⟨w, f, false⟩) := by
  have hff : formatFloat ⟨w, f, false⟩ =
      tokOf [] (natDigits w.toNat) (some (natDigits f.toNat)) := by
    rw [formatFloat_tokOf w f, if_neg (Int.not_lt.mpr hw0), if_neg (Int.not_lt.mpr hw0)]
  have hshape : (Command.query ⟨w, f, false⟩).writeTo =
      '?' :: 'Q' :: ('6' :: '0' :: '0' :: ' ' ::
        (tokOf [] (natDigits w.toNat) (some (natDigits f.toNat)) ++ ['\n'])) := by
    show '?' :: 'Q' :: '6' :: '0' :: '0' :: ' ' :: formatFloat ⟨w, f, false⟩ ++ ['\n'] = _
    rw [hff]
    simp
  rw [hshape]
  have hhyp : TokHyp [] (natDigits w.toNat) (some (natDigits f.toNat)) :=
    ⟨Or.inl rfl, natDigits_ne_nil _, natDigits_mem _,
      fun fs hfs => by cases hfs; exact natDigits_mem _⟩
  have hq := matchQuery_q600_tok (natDigits w.toNat) (natDigits f.toNat)
    (natDigits_ne_nil _) (natDigits_mem _) (natDigits_mem _)
  have hwof : wOf [] (natDigits w.toNat) = w := by
    rw [wOf_nil, natDigits_val, Int.toNat_of_nonneg hw0]
  have hpn := ParseNumber_tokOf_ok [] (natDigits w.toNat) (some (natDigits f.toNat))
    hhyp (by rw [hwof]; exact le_trans (by decide : i64min ≤ 0) hw0)
    (by rw [hwof]; exact hw)
    (by simp only [Option.getD_some, natDigits_val]
        rw [Int.toNat_of_nonneg hf0]; exact hf)
  rw [hwof] at hpn
  simp only [Option.getD_some, natDigits_val] at hpn
  rw [Int.toNat_of_nonneg hf0] at hpn
  have hlen : ¬('?' :: 'Q' :: ('6' :: '0' :: '0' :: ' ' ::
      (tokOf [] (natDigits w.toNat) (some (natDigits f.toNat)) ++ ['\n']))).length < 3 := by
    simp [List.length_append]
  have h600 : ParseNumber ['6', '0', '0'] = Except.ok ⟨600, 0, false⟩ := rfl
  have hvne := tokOf_ne_nil [] (natDigits w.toNat) (some (natDigits f.toNat)) hhyp
  simp only [ParseCommand, if_neg hlen]
  simp [hq, h600, hvne, hpn]

theorem ParseCommand_writeTo_write (kv : Nat) (hkv : (kv : Int) ≤ i64max)
    (w f : Int) (hwmin : i64min ≤ w) (hwmax : w ≤ i64max)
    (hf0 : 0 ≤ f) (hfmax : f ≤ i64max) :
    ParseCommand ((Command.write ⟨(kv : Int), 0, false⟩ ⟨w, f, false⟩).writeTo) =
      Except.ok (.write ⟨(kv : Int), 0, false⟩ ⟨w, f, false⟩) := by
  have hff : formatFloat ⟨w, f, false⟩ =
      tokOf (if w < 0 then ['-'] else []) (natDigits (if w < 0 then -w else w).toNat)
        (some (natDigits f.toNat)) := formatFloat_tokOf w f
  have hhyp : TokHyp (if w < 0 then ['-'] else [])
      (natDigits (if w < 0 then -w else w).toNat) (some (natDigits f.toNat)) :=
    tokHyp_float w f.toNat
  have hshape : (Command.write ⟨(kv : Int), 0, false⟩ ⟨w, f, false⟩).writeTo =
      '?' :: 'E' :: (natDigits kv ++ ' ' ::
        (tokOf (if w < 0 then ['-'] else []) (natDigits (if w < 0 then -w else w).toNat)
          (some (natDigits f.toNat)) ++ ['\n'])) := by
    show '?' :: 'E' :: formatDecimal ⟨(kv : Int), 0, false⟩ ++
      ' ' :: formatFloat ⟨w, f, false⟩ ++ ['\n'] = _
    rw [formatDecimal_natCast, hff]
    simp
  rw [hshape]
  have hmw := matchWrite_tok (natDigits kv) (if w < 0 then ['-'] else [])
    (natDigits (if w < 0 then -w else w).toNat) (natDigits f.toNat)
    (natDigits_ne_nil kv) (natDigits_mem kv) hhyp
  have hpnv := ParseNumber_digit_string_ok (natDigits kv) (natDigits_ne_nil kv)
    (natDigits_mem kv) (by rw [natDigits_val]; exact hkv)
  rw [natDigits_val] at hpnv
  have hwof := wOf_float w
  have hpnval := ParseNumber_tokOf_ok (if w < 0 then ['-'] else [])
    (natDigits (if w < 0 then -w else w).toNat) (some (natDigits f.toNat)) hhyp
    (by rw [hwof]; exact hwmin) (by rw [hwof]; exact hwmax)
    (by simp only [Option.getD_some, natDigits_val]
        rw [Int.toNat_of_nonneg hf0]; exact hfmax)
  rw [hwof] at hpnval
  simp only [Option.getD_some, natDigits_val] at hpnval
  rw [Int.toNat_of_nonneg hf0] at hpnval
  have hlen : ¬('?' :: 'E' :: (natDigits kv ++ ' ' ::
      (tokOf (if w < 0 then ['-'] else []) (natDigits (if w < 0 then -w else w).toNat)
        (some (natDigits f.toNat)) ++ ['\n']))).length < 3 := by
    simp [List.length_append]
    omega
  simp only [ParseCommand, if_neg hlen]
  simp [hmw, hpnv, hpnval]

/-! ### Inversion lemmas: the shape of successful matches -/

theorem matchUnsigned_some_inv (sgn s tok rest : List Char)
    (hsgn : sgn = [] ∨ sgn = ['+'] ∨ sgn = ['-'])
    (h : matchUnsigned sgn s = some (tok, rest)) :
    ∃ ds fr, TokHyp sgn ds fr ∧ tok = tokOf sgn ds fr := by
  have hdig : ∀ c ∈ s.takeWhile isDigitCh, isDigitCh c = true :=
    fun c hc => List.mem_takeWhile_imp hc
  simp only [matchUnsigned] at h
  split at h
  · exact absurd h (by simp)
  · rename_i hds
    split at h
    · simp only [Option.some.injEq, Prod.mk.injEq] at h
      refine ⟨s.takeWhile isDigitCh, none, ⟨hsgn, hds, hdig, by simp⟩, ?_⟩
      rw [← h.1]
      simp [tokOf, fracTail]
    · rename_i c s3 heq
      split at h
      · rename_i hc
        simp only [Option.some.injEq, Prod.mk.injEq] at h
        refine ⟨s.takeWhile isDigitCh, some (s3.takeWhile isDigitCh),
          ⟨hsgn, hds, hdig, fun fs hfs => by
            cases hfs; exact fun c2 hc2 => List.mem_takeWhile_imp hc2⟩, ?_⟩
        rw [← h.1]
        simp [tokOf, fracTail]
      · simp only [Option.some.injEq, Prod.mk.injEq] at h
        refine ⟨s.takeWhile isDigitCh, none, ⟨hsgn, hds, hdig, by simp⟩, ?_⟩
        rw [← h.1]
        simp [tokOf, fracTail]

theorem matchNumTok_some_inv (s tok rest : List Char)
    (h : matchNumTok s = some (tok, rest)) :
    ∃ sgn ds fr, TokHyp sgn ds fr ∧ tok = tokOf sgn ds fr := by
  cases s with
  | nil => exact absurd h (by simp [matchNumTok])
  | cons c s0 =>
    simp only [matchNumTok] at h
    by_cases hp : c = '+'
    · rw [if_pos hp] at h
      obtain ⟨ds, fr, hh, he⟩ := matchUnsigned_some_inv ['+'] s0 tok rest
        (Or.inr (Or.inl rfl)) h
      exact ⟨['+'], ds, fr, hh, he⟩
    · rw [if_neg hp] at h
      by_cases hm : c = '-'
      · rw [if_pos hm] at h
        obtain ⟨ds, fr, hh, he⟩ := matchUnsigned_some_inv ['-'] s0 tok rest
          (Or.inr (Or.inr rfl)) h
        exact ⟨['-'], ds, fr, hh, he⟩
      · rw [if_neg hm] at h
        obtain ⟨ds, fr, hh, he⟩ := matchUnsigned_some_inv [] (c :: s0) tok rest
          (Or.inl rfl) h
        exact ⟨[], ds, fr, hh, he⟩

theorem matchQuery_some_inv (s cds vtok : List Char)
    (h : matchQuery s = some (cds, vtok)) :
    cds ≠ [] ∧ (∀ c ∈ cds, isDigitCh c = true) ∧
      (vtok = [] ∨ ∃ ds fr, TokHyp [] ds fr ∧ vtok = tokOf [] ds fr) := by
  have hdig : ∀ c ∈ s.takeWhile isDigitCh, isDigitCh c = true :=
    fun c hc => List.mem_takeWhile_imp hc
  simp only [matchQuery] at h
  split at h
  · exact absurd h (by simp)
  · rename_i h1
    split at h
    · simp only [Option.some.injEq, Prod.mk.injEq] at h
      exact ⟨h.1 ▸ h1, h.1 ▸ hdig, Or.inl h.2.symm⟩
    · split at h
      · exact absurd h (by simp)
      · split at h
        · simp only [Option.some.injEq, Prod.mk.injEq] at h
          exact ⟨h.1 ▸ h1, h.1 ▸ hdig, Or.inl h.2.symm⟩
        · split at h
          · exact absurd h (by simp)
          · rename_i tok r heq
            split at h
            · simp only [Option.some.injEq, Prod.mk.injEq] at h
              obtain ⟨ds, fr, hh, he⟩ := matchUnsigned_some_inv []
                ((s.dropWhile isDigitCh).dropWhile isSpaceCh) tok r
                (Or.inl rfl) heq
              exact ⟨h.1 ▸ h1, h.1 ▸ hdig, Or.inr ⟨ds, fr, hh, h.2 ▸ he⟩⟩
            · exact absurd h (by simp)

theorem matchWrite_some_inv (s vds vtok : List Char)
    (h : matchWrite s = some (vds, vtok)) :
    vds ≠ [] ∧ (∀ c ∈ vds, isDigitCh c = true) ∧
      ∃ sgn ds fr, TokHyp sgn ds fr ∧ vtok = tokOf sgn ds fr := by
  have hdig : ∀ c ∈ s.takeWhile isDigitCh, isDigitCh c = true :=
    fun c hc => List.mem_takeWhile_imp hc
  simp only [matchWrite] at h
  split at h
  · exact absurd h (by simp)
  · rename_i h1
    split at h
    · exact absurd h (by simp)
    · split at h
      · exact absurd h (by simp)
      · rename_i tok r heq
        split at h
        · simp only [Option.some.injEq, Prod.mk.injEq] at h
          obtain ⟨sgn, ds, fr, hh, he⟩ := matchNumTok_some_inv
            ((s.dropWhile isDigitCh).dropWhile isSpaceCh) tok r heq
          exact ⟨h.1 ▸ h1, h.1 ▸ hdig, sgn, ds, fr, hh, h.2 ▸ he⟩
        · exact absurd h (by simp)

/-- Any command produced by ParseCommand reparses from its canonical wire
form to an equal value. -/
theorem ParseCommand_roundtrip (s : List Char) (m : Command)
    (h : ParseCommand s = Except.ok m) :
    ParseCommand m.writeTo = Except.ok m := by
  simp only [ParseCommand] at h
  split at h
  · exact absurd h (by simp)
  · split at h
    · rename_i c0 c1 rest hlen2
      split at h
      · exact absurd h (by simp)
      · split at h
        · -- the E variant
          split at h
          · exact absurd h (by simp)
          · rename_i vds vtok heq
            split at h
            · exact absurd h (by simp)
            · rename_i v hv
              split at h
              · exact absurd h (by simp)
              · rename_i val hval
                simp only [Except.ok.injEq] at h
                subst h
                obtain ⟨hvdsne, hvdsdig, sgn, ds, fr, hhyp, rfl⟩ :=
                  matchWrite_some_inv rest vds vtok heq
                obtain ⟨hveq, hvb⟩ :=
                  ParseNumber_digit_string_inv vds v hvdsne hvdsdig hv
                obtain ⟨hvaleq, hb1, hb2, hb3⟩ :=
                  ParseNumber_tokOf_inv sgn ds fr val hhyp hval
                rw [hveq, hvaleq]
                exact ParseCommand_writeTo_write (digitsVal vds) hvb (wOf sgn ds)
                  ((digitsVal (fr.getD []) : Int)) hb1 hb2 (Int.natCast_nonneg _) hb3
        · split at h
          · -- the Q variant
            split at h
            · exact absurd h (by simp)
            · rename_i cds vtok heq
              split at h
              · exact absurd h (by simp)
              · rename_i cmd hcmd
                split at h
                · exact absurd h (by simp)
                · split at h
                  · -- the macro-variable query
                    rename_i h600
                    split at h
                    · exact absurd h (by simp)
                    · rename_i hvtne
                      split at h
                      · exact absurd h (by simp)
                      · rename_i n hn
                        simp only [Except.ok.injEq] at h
                        subst h
                        obtain ⟨hcdsne, hcdsdig, hvt⟩ :=
                          matchQuery_some_inv rest cds vtok heq
                        rcases hvt with rfl | ⟨ds, fr, hhyp, rfl⟩
                        · exact absurd rfl hvtne
                        · obtain ⟨hneq, hb1, hb2, hb3⟩ :=
                            ParseNumber_tokOf_inv [] ds fr n hhyp hn
                          rw [wOf_nil] at hneq hb2
                          rw [hneq]
                          exact ParseCommand_writeTo_query _ _
                            (Int.natCast_nonneg _) hb2 (Int.natCast_nonneg _) hb3
                  · -- a basic command
                    rename_i h600
                    simp only [Except.ok.injEq] at h
                    subst h
                    obtain ⟨hcdsne, hcdsdig, -⟩ := matchQuery_some_inv rest cds vtok heq
                    obtain ⟨hceq, hcb⟩ :=
                      ParseNumber_digit_string_inv cds cmd hcdsne hcdsdig hcmd
                    rw [hceq]
                    refine ParseCommand_writeTo_basic (digitsVal cds) hcb ?_
                    intro hcc
                    apply h600
                    rw [hceq]
                    exact hcc
          · exact absurd h (by simp)
    · exact absurd h (by simp)

/-! ### The claims -/

/-- Claim C1: Policy.Allow returns true exactly when the message is safe,
or is a write whose variable whole part lies in an inclusive AllowWrites
range, or reports a command code while undocumented Q commands are
allowed; in every other case it returns false. -/
theorem policy_allow_characterization (p : Policy) (m : Command) :
    p.Allow m = true ↔
      (m.IsSafe = true ∨
        (m.IsWrite = true ∧ ∃ v, m.variableNum = some v ∧
          ∃ pr ∈ p.allowWrites, pr.1 ≤ v.whole ∧ v.whole ≤ pr.2) ∨
        (m.commandNum.isSome = true ∧ p.allowUndocumentedQ = true)) := by
  by_cases hs : m.IsSafe = true
  · simp [Policy.Allow, hs]
  · replace hs : m.IsSafe = false := by simpa using hs
    cases m with
    | basic code =>
      simp [Policy.Allow, Command.IsWrite, Command.commandNum, Command.variableNum, hs]
    | query v =>
      simp [Policy.Allow, Command.IsWrite, Command.commandNum, Command.variableNum, hs]
    | write v value =>
      simp [Policy.Allow, Command.IsWrite, Command.commandNum, Command.variableNum,
        Policy.AllowWrite, List.any_eq_true, hs]

/-- Claim C10: a macro query on the NaN variable is classified safe, since
the safety test only inspects the whole and fractional parts, which are
zero on NaN; consequently every policy allows it. -/
theorem nan_query_safe_and_allowed (p : Policy) :
    (Command.query numberNaN).IsSafe = true ∧
      p.Allow (Command.query numberNaN) = true :=
  ⟨rfl, rfl⟩

/-- A prefix containing every IPv4 address, used to exhibit the priority
ordering of expandPolicy. -/
def cidrAll4 : Cidr := ⟨.v4 0 0 0 0, 0⟩

def policyGlobalSample : Policy := ⟨true, [], false⟩

def policyTargetSample : Policy := ⟨false, [(1, 33)], false⟩

/-- Claim C2 (evaluation): with a global entry at priority 0 and a
per-target entry at priority 1 both containing the client address, the
sort places the priority-0 entry first and the first-match scan selects
the global policy, not the per-target one. -/
theorem policy_priority_first_match_eval :
    expandPolicyOrdered [(cidrAll4, policyGlobalSample)] [(cidrAll4, policyTargetSample)] =
      [⟨cidrAll4, 0, policyGlobalSample⟩, ⟨cidrAll4, 1, policyTargetSample⟩] ∧
    PolicyFor
      (expandPolicyOrdered [(cidrAll4, policyGlobalSample)] [(cidrAll4, policyTargetSample)])
      (.v4 127 0 0 1) = some policyGlobalSample ∧
    policyGlobalSample ≠ policyTargetSample :=
  ⟨rfl, rfl, by decide⟩

/-- Claim C5 (counterexample): the fractional digit strings 01 and 1
differ, but both inputs parse to the same Number, because the parser
stores the integer value of the digits and integer parsing drops leading
zeros. -/
theorem parse_number_leading_zero_counterexample :
    ParseNumber "1.01".toList = ParseNumber "1.1".toList ∧
    ParseNumber "1.01".toList = Except.ok ⟨1, 1, false⟩ :=
  ⟨rfl, rfl⟩

/-- Claim C5 (amended): frac holds the decimal integer value of the
fractional digits, so trailing zeros are significant while leading zeros
are dropped. -/
theorem parse_number_frac_digit_value :
    ParseNumber "1.10".toList = Except.ok ⟨1, 10, false⟩ ∧
    ParseNumber "1.1".toList = Except.ok ⟨1, 1, false⟩ ∧
    ParseNumber "1.01".toList = Except.ok ⟨1, 1, false⟩ ∧
    (⟨1, 10, false⟩ : Number) ≠ ⟨1, 1, false⟩ :=
  ⟨rfl, rfl, rfl, by decide⟩

/-- Claim C6 (evaluation): a token consisting solely of prompt bytes is
returned unchanged by ScanPrompt, while a token with a payload has all
leading prompts stripped. -/
theorem scan_prompt_prompt_only_eval :
    ScanPrompt ">>\n".toList false = (3, some ['>', '>']) ∧
    ScanPrompt ">>ab\n".toList false = (5, some ['a', 'b']) :=
  ⟨rfl, rfl⟩

/-- Claim C3: a command produced by ParseCommand reparses from its
canonical serialization to an equal value. -/
theorem parse_command_canonical_roundtrip (s : List Char) (m : Command)
    (h : ParseCommand s = Except.ok m) :
    ParseCommand m.writeTo = Except.ok m :=
  ParseCommand_roundtrip s m h

/-- Witness for C3 at a concrete macro query. -/
theorem parse_command_canonical_roundtrip_witness :
    ParseCommand "?Q600 1.5".toList = Except.ok (.query ⟨1, 5, false⟩) ∧
    ParseCommand ((Command.query ⟨1, 5, false⟩).writeTo) =
      Except.ok (.query ⟨1, 5, false⟩) :=
  ⟨rfl, parse_command_canonical_roundtrip "?Q600 1.5".toList (.query ⟨1, 5, false⟩) rfl⟩

/-- Claim C9: parsing the float formatting of any constructible Number
value returns the value exactly, NaN included. -/
theorem number_format_float_roundtrip (n : Number)
    (h1 : i64min ≤ n.whole) (h2 : n.whole ≤ i64max)
    (h3 : 0 ≤ n.frac) (h4 : n.frac ≤ i64max)
    (h5 : n.nan = true → n = numberNaN) :
    ParseNumber (formatFloat n) = Except.ok n :=
  ParseNumber_formatFloat n h1 h2 h3 h4 h5

/-- Witness for C9 at a concrete negative fixed-point value. -/
theorem number_format_float_roundtrip_witness :
    ParseNumber (formatFloat ⟨-3, 5, false⟩) = Except.ok ⟨-3, 5, false⟩ :=
  number_format_float_roundtrip ⟨-3, 5, false⟩ (by decide) (by decide) (by decide)
    (by decide) (fun hx => absurd hx (by decide))

/-- Claim C4: response classification by command variant.  The write hook
succeeds exactly on the single bang byte; the query hook returns a numeric
response exactly when the buffer splits on comma-space into two parts
whose second is a Number, and an unsuccessful opaque response otherwise;
the basic hook always returns an unsuccessful opaque response. -/
theorem parse_response_characterization (b : List Char) :
    writeParseResponse b = Resp.raw b (decide (b = ['!'])) ∧
    basicParseResponse b = Resp.raw b false ∧
    (∀ n, queryParseResponse b = Resp.queryResp n ↔
      ∃ p1 p2, splitSep commaSpace b = [p1, p2] ∧ ParseNumber p2 = Except.ok n) ∧
    ((∃ n, queryParseResponse b = Resp.queryResp n) ∨
      queryParseResponse b = Resp.raw b false) := by
  refine ⟨?_, rfl, ?_, ?_⟩
  · simp only [writeParseResponse, Resp.raw.injEq, true_and]
    rcases b with - | ⟨c, t⟩
    · simp
    · rcases t with - | ⟨c2, t2⟩ <;> simp
  · intro n
    constructor
    · intro hq
      unfold queryParseResponse at hq
      split at hq
      · rename_i p1 p2 heq
        split at hq
        · rename_i num hnum
          simp only [Resp.queryResp.injEq] at hq
          exact ⟨p1, p2, heq, hq ▸ hnum⟩
        · exact absurd hq (by simp)
      · exact absurd hq (by simp)
    · rintro ⟨p1, p2, hsplit, hok⟩
      simp [queryParseResponse, hsplit, hok]
  · rcases hs : splitSep commaSpace b with - | ⟨p1, - | ⟨p2, - | ⟨p3, t⟩⟩⟩
    · simp [queryParseResponse, hs]
    · simp [queryParseResponse, hs]
    · rcases hok : ParseNumber p2 with e | num
      · simp [queryParseResponse, hs, hok]
      · simp [queryParseResponse, hs, hok]
    · simp [queryParseResponse, hs]

/-- Claim C7: after expansion every ordered policy list is non-empty; when
the combined valid global and per-target entries are empty the loopback
default with the empty policy is installed, and otherwise the result is a
permutation of the combined entries with no default added. -/
theorem expand_policy_default_characterization (g t : List (Cidr × Policy)) :
    expandPolicyOrdered g t ≠ [] ∧
    ((expandPolicyOrdered g t = defaultOrdered ∧ toOrdered 0 g ++ toOrdered 1 t = []) ∨
      ((expandPolicyOrdered g t).Perm (toOrdered 0 g ++ toOrdered 1 t) ∧
        toOrdered 0 g ++ toOrdered 1 t ≠ [])) := by
  by_cases hord : toOrdered 0 g ++ toOrdered 1 t = []
  · have hx : expandPolicyOrdered g t = defaultOrdered := by
      simp [expandPolicyOrdered, hord]
    refine ⟨?_, Or.inl ⟨hx, hord⟩⟩
    rw [hx]
    simp [defaultOrdered]
  · have hx : expandPolicyOrdered g t =
        sortPolicies (toOrdered 0 g ++ toOrdered 1 t) := by
      simp [expandPolicyOrdered, hord]
    have hperm : (expandPolicyOrdered g t).Perm (toOrdered 0 g ++ toOrdered 1 t) := by
      rw [hx]
      exact List.perm_insertionSort polLE _
    refine ⟨?_, Or.inr ⟨hperm, hord⟩⟩
    intro hnil
    rw [hnil] at hperm
    exact hord (hperm.nil_eq).symm

/-- Claim C8 (counterexample): the reply written when no policy matches
starts with two prompt bytes, not one. -/
theorem proxy_error_reply_counterexample :
    (proxyPolicyStep [] (.v4 127 0 0 1) (.basic ⟨999, 0, false⟩)).written =
      ">>?, MDCMUX NO POLICY MATCH\n".toList ∧
    ">>?, MDCMUX NO POLICY MATCH\n".toList ≠ ">?, MDCMUX NO POLICY MATCH\n".toList :=
  ⟨rfl, by decide⟩

/-- Claim C8 (amended): in a client-loop iteration with a parsed command,
no matching policy writes the no-match reply with the two-prompt error
prefix and hangs up; a matching policy that denies writes the deny reply
with the same prefix and keeps the connection; the command is forwarded
only when the matching policy allows it. -/
theorem proxy_policy_step_characterization (policies : List OrderedPolicy)
    (remote : IpAddr) (m : Command) :
    errorReply noPolicyMatchMsg = ">>?, MDCMUX NO POLICY MATCH\n".toList ∧
    errorReply denyPolicyMsg = ">>?, MDCMUX DENY POLICY\n".toList ∧
    ((proxyPolicyStep policies remote m =
        ⟨errorReply noPolicyMatchMsg, .hangUp, false⟩ ∧
        policies.find? (fun op => op.cidr.Contains remote) = none) ∨
      (∃ op, policies.find? (fun op2 => op2.cidr.Contains remote) = some op ∧
        op.policy.Allow m = false ∧
        proxyPolicyStep policies remote m =
          ⟨errorReply denyPolicyMsg, .keepGoing, false⟩) ∨
      (∃ op, policies.find? (fun op2 => op2.cidr.Contains remote) = some op ∧
        op.policy.Allow m = true ∧
        proxyPolicyStep policies remote m = ⟨[], .keepGoing, true⟩)) := by
  refine ⟨rfl, rfl, ?_⟩
  rcases hf : policies.find? (fun op => op.cidr.Contains remote) with - | op
  · exact Or.inl ⟨by simp [proxyPolicyStep, hf], hf⟩
  · by_cases ha : op.policy.Allow m = true
    · exact Or.inr (Or.inr ⟨op, hf, ha, by simp [proxyPolicyStep, hf, ha]⟩)
    · replace ha : op.policy.Allow m = false := by simpa using ha
      exact Or.inr (Or.inl ⟨op, hf, ha, by simp [proxyPolicyStep, hf, ha]⟩)
